import Mathlib

/-!
Shallow embedding of GapSight's pain-point analysis pipeline
(`src/youtube/video.py`, class `PainPointAnalyzer`), together with proofs
of the specification's claims about it.

Modelling conventions:
* Python strings are Lean `String`; `str.lower()` is `lowerStr` (ASCII
  lowercasing; identity on the Chinese characters used by the taxonomy,
  exactly as Python's `lower` is).
* Python's substring test `needle in hay` is `containsSub hay needle`.
* Python `dict`s (insertion ordered, unique keys) are association lists
  to which new keys are appended at the end.
* Python `float` arithmetic is modelled over `ℚ`; the severity formula
  only multiplies, adds, divides and takes `min`, and the spec states it
  as exact arithmetic.
* `list.sort(key=..., reverse=True)` (Python's stable sort, descending
  by key) is modelled by a stable descending insertion sort.
* A Python `ZeroDivisionError` in the scorer is modelled by an `Option`
  variant of the scorer and pipeline (`none` = the exception).
-/

/-- The `Comment` dataclass. -/
structure Comment where
  text : String
  author : String
  likes : Nat
  timestamp : String
  reply_count : Nat := 0
deriving DecidableEq, Repr

/-- One pain-point mention, the dict appended by
`_extract_pain_points_from_comment` (keys `category`, `keyword`,
`comment`, `likes`). -/
structure Mention where
  category : String
  keyword : String
  comment : String
  likes : Nat
deriving DecidableEq, Repr

/-- The per-key accumulator dict built by `_group_similar_pains`
(keys `count`, `category`, `comments`). -/
structure GroupData where
  count : Nat
  category : String
  comments : List String
deriving DecidableEq, Repr

/-- The output dict built by `analyze_pain_points` (the `PainPoint`
dataclass shape). -/
structure PainPoint where
  description : String
  frequency : Nat
  severity : ℚ
  related_comments : List String
  category : String
deriving DecidableEq, Repr

/-- ASCII lowercasing of a string, modelling Python's `str.lower()` on
the character repertoire this program uses. -/
def lowerStr (s : String) : String := String.mk (s.data.map Char.toLower)

/-- Does the list start with the given needle? -/
def strStarts : List Char → List Char → Bool
  | [], _ => true
  | _ :: _, [] => false
  | a :: as, b :: bs => a == b && strStarts as bs

/-- Does the haystack contain the needle as a contiguous sublist? -/
def hasSubAux (needle : List Char) : List Char → Bool
  | [] => strStarts needle []
  | c :: rest => strStarts needle (c :: rest) || hasSubAux needle rest

/-- Python's substring test `needle in hay`. -/
def containsSub (hay needle : String) : Bool := hasSubAux needle.data hay.data

/-- The keyword test of `_extract_pain_points_from_comment`:
`keyword in comment.text.lower()`.  Note the keyword itself is NOT
lowercased by the code. -/
def matchesKeyword (c : Comment) (kw : String) : Bool :=
  containsSub (lowerStr c.text) kw

/-- The analyzer's `self.pain_keywords` dict, in declaration order. -/
def pain_keywords : List (String × List String) :=
  [("内容质量", ["不清晰", "不完整", "太简单", "太复杂", "不深入", "不详细", "错误", "不准确",
                 "跳过", "缺少", "遗漏", "不够", "需要更多", "不全面"]),
   ("教学节奏", ["太快", "太慢", "跟不上", "节奏", "速度", "时间"]),
   ("用户体验", ["广告", "卡顿", "画质", "音质", "字幕", "翻译", "界面"]),
   ("技术问题", ["加载", "播放", "卡", "黑屏", "声音", "画面"]),
   ("功能需求", ["需要", "希望", "应该", "要是能", "如果有", "缺少功能", "增加"]),
   ("学习效果", ["学不会", "不理解", "记不住", "太难", "太基础", "无聊", "没帮助"]),
   ("负面情绪", ["沮丧", "困惑", "失望", "讨厌", "烦", "生气", "不满意"])]

/-- The analyzer's `self.severity_weights` dict. -/
def severity_weights : List (String × ℚ) :=
  [("负面情绪", 1), ("技术问题", 9/10), ("内容质量", 8/10), ("学习效果", 7/10),
   ("用户体验", 6/10), ("功能需求", 5/10), ("教学节奏", 4/10)]

/-- Association-list lookup, modelling Python `dict` access. -/
def lookupQ : List (String × ℚ) → String → Option ℚ
  | [], _ => none
  | (k, v) :: rest, c => if k == c then some v else lookupQ rest c

/-- `self.severity_weights.get(category, 0.5)`. -/
def getWeight (category : String) : ℚ :=
  match lookupQ severity_weights category with
  | some w => w
  | none => 1/2

/-- `_extract_pain_points_from_comment`: for each category (in taxonomy
order) append a mention for the first matching keyword, if any (the
`break` after a match).  Parametrised by the taxonomy; the pipeline
instantiates it with `pain_keywords`. -/
def extract_pain_points_from_comment (pk : List (String × List String))
    (c : Comment) : List Mention :=
  pk.filterMap fun p =>
    (p.2.find? fun kw => matchesKeyword c kw).map fun kw =>
      { category := p.1, keyword := kw, comment := c.text, likes := c.likes }

/-- The grouping key `f"{category}: {keyword}"`. -/
def mentionKey (m : Mention) : String := m.category ++ ": " ++ m.keyword

/-- One loop iteration of `_group_similar_pains` on an existing entry:
`count += 1` and append the comment text if not already present. -/
def bumpGroup (d : GroupData) (c : String) : GroupData :=
  { d with count := d.count + 1,
           comments := if d.comments.contains c then d.comments
                       else d.comments ++ [c] }

/-- One loop iteration of `_group_similar_pains`: create the entry if the
key is new (appended at the end, as Python dicts do), then bump it. -/
def addMention (g : List (String × GroupData)) (m : Mention) :
    List (String × GroupData) :=
  let key := mentionKey m
  if (g.find? fun p => p.1 == key).isSome then
    g.map fun p => if p.1 == key then (p.1, bumpGroup p.2 m.comment) else p
  else
    g ++ [(key, { count := 1, category := m.category, comments := [m.comment] })]

/-- `_group_similar_pains`: fold all mentions into the ordered dict. -/
def group_similar_pains (ms : List Mention) : List (String × GroupData) :=
  ms.foldl addMention []

/-- All mentions emitted across the comment sequence, in comment order
(the first loop of `analyze_pain_points`). -/
def allMentions (pk : List (String × List String)) (cs : List Comment) :
    List Mention :=
  cs.flatMap (extract_pain_points_from_comment pk)

/-- `_calculate_severity`: `min(base * (1 + (count/total) * 2), 1.0)`. -/
def calculate_severity (category : String) (count : Nat)
    (total_comments : Nat) : ℚ :=
  let base_severity := getWeight category
  let frequency : ℚ := (count : ℚ) / (total_comments : ℚ)
  let severity := base_severity * (1 + frequency * 2)
  min severity 1

/-- Building one output record from a grouped entry (the dict literal in
`analyze_pain_points`): `description` is the grouping key,
`related_comments` is truncated to 5. -/
def mkPainPoint (total : Nat) (p : String × GroupData) : PainPoint :=
  { description := p.1,
    frequency := p.2.count,
    severity := calculate_severity p.2.category p.2.count total,
    related_comments := p.2.comments.take 5,
    category := p.2.category }

/-- The pain points in grouping-encounter order, before the final sort. -/
def prePainPoints (cs : List Comment) : List PainPoint :=
  (group_similar_pains (allMentions pain_keywords cs)).map
    (mkPainPoint cs.length)

/-- Stable descending insertion: `x` goes before the first element it
strictly beats, hence after all earlier elements of equal severity. -/
def insertBySeverity (x : PainPoint) : List PainPoint → List PainPoint
  | [] => [x]
  | y :: ys => if y.severity < x.severity then x :: y :: ys
               else y :: insertBySeverity x ys

/-- Models `pain_points.sort(key=lambda x: x.severity, reverse=True)`:
Python's sort is stable, so this is a stable descending sort. -/
def sortBySeverityDesc (l : List PainPoint) : List PainPoint :=
  l.foldl (fun acc x => insertBySeverity x acc) []

/-- `analyze_pain_points`: extract, group, score, rank. -/
def analyze_pain_points (cs : List Comment) : List PainPoint :=
  sortBySeverityDesc (prePainPoints cs)

/-- One step of first-seen deduplication: append the element unless
already present.  This is the `comments` accumulation step inside
`_group_similar_pains` (see `bumpGroup`). -/
def dfsStep (acc : List String) (x : String) : List String :=
  if acc.contains x then acc else acc ++ [x]

/-- Distinct elements of a list in first-encountered order. -/
def distinctFirstSeen (l : List String) : List String := l.foldl dfsStep []

/-- The mentions of a mention list whose grouping key is `key`. -/
def keyMentions (key : String) (ms : List Mention) : List Mention :=
  ms.filter fun m => mentionKey m == key

/-- Canonical description of the group accumulated for `key`: count of
key-matching mentions, category of the first of them, and their distinct
comment texts in first-seen order. -/
def gdata (key : String) (ms : List Mention) : GroupData :=
  { count := (keyMentions key ms).length,
    category := ((keyMentions key ms).head?.map Mention.category).getD "",
    comments := distinctFirstSeen ((keyMentions key ms).map Mention.comment) }

/-- Canonical form of the grouped dict: keys in first-encountered order,
each mapped to its canonical group data. -/
def canonGroup (ms : List Mention) : List (String × GroupData) :=
  (distinctFirstSeen (ms.map mentionKey)).map fun k => (k, gdata k ms)

/-- Severity formula exactly as the specification words it (section 4.3):
`min(1.0, weight(category) * (1 + (frequency / total_comments) * 2))`,
with `weight` defaulting to `0.5` for unlisted categories. -/
def specSeverity (category : String) (frequency total_comments : Nat) : ℚ :=
  min 1 (getWeight category * (1 + ((frequency : ℚ) / (total_comments : ℚ)) * 2))

/-- `_calculate_severity` with Python's `ZeroDivisionError` made
explicit: `none` models the exception raised when `total_comments = 0`. -/
def calculate_severityE (category : String) (count : Nat)
    (total_comments : Nat) : Option ℚ :=
  if total_comments = 0 then none
  else some (calculate_severity category count total_comments)

/-- `analyze_pain_points` with the scorer's division failure made
explicit: `none` iff some invocation of the scorer divides by zero. -/
def analyze_pain_pointsE (cs : List Comment) : Option (List PainPoint) :=
  ((group_similar_pains (allMentions pain_keywords cs)).mapM fun p =>
    (calculate_severityE p.2.category p.2.count cs.length).map fun s =>
      { description := p.1, frequency := p.2.count, severity := s,
        related_comments := p.2.comments.take 5,
        category := p.2.category }).map sortBySeverityDesc

/-- A sample comment used to instantiate the universally quantified
theorems below on concrete data (spec section 8's first scenario). -/
def sampleComment : Comment :=
  { text := "太快", author := "", likes := 0, timestamp := "", reply_count := 0 }

/-- The pain point the pipeline produces for `[sampleComment]`. -/
def samplePP : PainPoint :=
  mkPainPoint 1
    ("教学节奏: 太快", { count := 1, category := "教学节奏", comments := ["太快"] })

/-! ### Basic lemmas about first-seen deduplication -/

/-- String list `contains` agrees with membership. -/
theorem containsS_iff (l : List String) (a : String) :
    l.contains a = true ↔ a ∈ l := List.elem_iff

/-- Membership after one dedup step. -/
theorem mem_dfsStep {acc : List String} {x y : String} :
    y ∈ dfsStep acc x ↔ y ∈ acc ∨ y = x := by
  unfold dfsStep
  split
  · rename_i h
    have hx : x ∈ acc := (containsS_iff acc x).mp h
    constructor
    · exact Or.inl
    · rintro (hy | rfl)
      · exact hy
      · exact hx
  · simp

/-- One dedup step preserves `Nodup`. -/
theorem dfsStep_nodup {acc : List String} {x : String} (h : acc.Nodup) :
    (dfsStep acc x).Nodup := by
  unfold dfsStep
  split
  · exact h
  · rename_i hc
    have hx : x ∉ acc := fun hm => hc ((containsS_iff acc x).mpr hm)
    simp [List.nodup_append, h, hx]

/-- One dedup step grows length by at most one. -/
theorem length_dfsStep (acc : List String) (x : String) :
    (dfsStep acc x).length ≤ acc.length + 1 := by
  unfold dfsStep
  split
  · omega
  · simp

/-- Membership in the dedup fold. -/
theorem mem_foldl_dfsStep :
    ∀ (l acc : List String) (y : String),
      y ∈ l.foldl dfsStep acc ↔ y ∈ acc ∨ y ∈ l := by
  intro l
  induction l with
  | nil => simp
  | cons x xs ih =>
    intro acc y
    rw [List.foldl_cons, ih, mem_dfsStep]
    simp [or_assoc]

/-- The dedup fold preserves `Nodup`. -/
theorem nodup_foldl_dfsStep :
    ∀ (l acc : List String), acc.Nodup → (l.foldl dfsStep acc).Nodup := by
  intro l
  induction l with
  | nil => intro acc h; exact h
  | cons x xs ih => intro acc h; exact ih _ (dfsStep_nodup h)

/-- The dedup fold grows length by at most the input length. -/
theorem length_foldl_dfsStep :
    ∀ (l acc : List String), (l.foldl dfsStep acc).length ≤ acc.length + l.length := by
  intro l
  induction l with
  | nil => simp
  | cons x xs ih =>
    intro acc
    calc (List.foldl dfsStep (dfsStep acc x) xs).length
        ≤ (dfsStep acc x).length + xs.length := ih _
      _ ≤ acc.length + 1 + xs.length := by
          have := length_dfsStep acc x; omega
      _ = acc.length + (x :: xs).length := by simp; omega

/-- Membership in `distinctFirstSeen`. -/
theorem mem_distinctFirstSeen (l : List String) (y : String) :
    y ∈ distinctFirstSeen l ↔ y ∈ l := by
  unfold distinctFirstSeen
  rw [mem_foldl_dfsStep]
  simp

/-- `distinctFirstSeen` has no duplicates. -/
theorem distinctFirstSeen_nodup (l : List String) :
    (distinctFirstSeen l).Nodup :=
  nodup_foldl_dfsStep l [] List.nodup_nil

/-- `distinctFirstSeen` never lengthens a list. -/
theorem length_distinctFirstSeen (l : List String) :
    (distinctFirstSeen l).length ≤ l.length := by
  have := length_foldl_dfsStep l []
  simpa using this

/-- Appending one element to the input performs one dedup step on the
output. -/
theorem distinctFirstSeen_append_single (l : List String) (x : String) :
    distinctFirstSeen (l ++ [x]) = dfsStep (distinctFirstSeen l) x := by
  unfold distinctFirstSeen
  rw [List.foldl_append]
  rfl

/-! ### Lemmas about key filtering -/

/-- Filtering after appending one mention. -/
theorem keyMentions_append_single (key : String) (ms : List Mention) (m : Mention) :
    keyMentions key (ms ++ [m]) =
      keyMentions key ms ++ if mentionKey m == key then [m] else [] := by
  unfold keyMentions
  rw [List.filter_append]
  congr 1
  rw [List.filter_cons]
  split <;> simp_all

/-- A key absent from the mention list filters to nothing. -/
theorem keyMentions_eq_nil (key : String) (ms : List Mention)
    (h : key ∉ ms.map mentionKey) : keyMentions key ms = [] := by
  unfold keyMentions
  rw [List.filter_eq_nil_iff]
  intro m hm
  simp only [decide_eq_true_eq, beq_iff_eq]
  intro heq
  exact h (heq ▸ List.mem_map_of_mem mentionKey hm)

/-- A key present in the mention list filters to something. -/
theorem keyMentions_ne_nil (key : String) (ms : List Mention)
    (h : key ∈ ms.map mentionKey) : keyMentions key ms ≠ [] := by
  obtain ⟨m, hm, rfl⟩ := List.mem_map.mp h
  unfold keyMentions
  intro hnil
  rw [List.filter_eq_nil_iff] at hnil
  exact hnil m hm (by simp)

/-! ### The grouped dict in canonical form -/

/-- Appending a mention with a different key leaves a group unchanged. -/
theorem gdata_append_of_ne (key : String) (done : List Mention) (m : Mention)
    (h : mentionKey m ≠ key) : gdata key (done ++ [m]) = gdata key done := by
  unfold gdata
  rw [keyMentions_append_single]
  have hbeq : (mentionKey m == key) = false := by
    simpa using h
  rw [hbeq]
  simp

/-- Appending a mention whose key already has a group bumps that group. -/
theorem gdata_append_self (done : List Mention) (m : Mention)
    (hmem : mentionKey m ∈ done.map mentionKey) :
    gdata (mentionKey m) (done ++ [m]) =
      bumpGroup (gdata (mentionKey m) done) m.comment := by
  have hne : keyMentions (mentionKey m) done ≠ [] := keyMentions_ne_nil _ _ hmem
  unfold gdata bumpGroup
  rw [keyMentions_append_single, beq_self_eq_true]
  cases hkm : keyMentions (mentionKey m) done with
  | nil => exact absurd hkm hne
  | cons m0 km =>
    simp only [hkm, if_true, GroupData.mk.injEq]
    refine ⟨by simp, by simp, ?_⟩
    rw [List.map_append,
        show List.map Mention.comment [m] = [m.comment] from rfl,
        distinctFirstSeen_append_single]
    rfl

/-- Appending a mention with a fresh key creates the singleton group. -/
theorem gdata_append_new (done : List Mention) (m : Mention)
    (hmem : mentionKey m ∉ done.map mentionKey) :
    gdata (mentionKey m) (done ++ [m]) =
      { count := 1, category := m.category, comments := [m.comment] } := by
  unfold gdata
  rw [keyMentions_append_single, keyMentions_eq_nil _ _ hmem, beq_self_eq_true]
  simp [distinctFirstSeen, dfsStep]

/-- One `addMention` step on a canonical dict appends the mention to the
underlying mention list. -/
theorem addMention_canonGroup (done : List Mention) (m : Mention) :
    addMention (canonGroup done) m = canonGroup (done ++ [m]) := by
  have hmapapp : (done ++ [m]).map mentionKey =
      done.map mentionKey ++ [mentionKey m] := by simp
  by_cases hmem : mentionKey m ∈ done.map mentionKey
  · have hfind : ((canonGroup done).find? fun p => p.1 == mentionKey m).isSome := by
      rw [List.find?_isSome]
      exact ⟨(mentionKey m, gdata (mentionKey m) done),
        List.mem_map_of_mem _ ((mem_distinctFirstSeen _ _).mpr hmem), by simp⟩
    have hdfs : distinctFirstSeen ((done ++ [m]).map mentionKey) =
        distinctFirstSeen (done.map mentionKey) := by
      rw [hmapapp, distinctFirstSeen_append_single]
      unfold dfsStep
      rw [if_pos ((containsS_iff _ _).mpr ((mem_distinctFirstSeen _ _).mpr hmem))]
    show (if ((canonGroup done).find? fun p => p.1 == mentionKey m).isSome then
        (canonGroup done).map fun p =>
          if p.1 == mentionKey m then (p.1, bumpGroup p.2 m.comment) else p
      else canonGroup done ++
        [(mentionKey m, { count := 1, category := m.category, comments := [m.comment] })]) =
      canonGroup (done ++ [m])
    rw [if_pos hfind]
    unfold canonGroup
    rw [hdfs, List.map_map]
    refine List.map_congr_left ?_
    intro k hk
    simp only [Function.comp]
    by_cases hkey : k = mentionKey m
    · subst hkey
      rw [if_pos (by simp), gdata_append_self done m hmem]
    · rw [if_neg (by simpa using hkey), gdata_append_of_ne _ _ _ (fun h => hkey h.symm)]
  · have hfind : ¬ ((canonGroup done).find? fun p => p.1 == mentionKey m).isSome := by
      rw [List.find?_isSome]
      rintro ⟨x, hx, hbeq⟩
      unfold canonGroup at hx
      obtain ⟨k, hk, rfl⟩ := List.mem_map.mp hx
      have : k = mentionKey m := by simpa using hbeq
      exact hmem (this ▸ (mem_distinctFirstSeen _ _).mp hk)
    have hdfs : distinctFirstSeen ((done ++ [m]).map mentionKey) =
        distinctFirstSeen (done.map mentionKey) ++ [mentionKey m] := by
      rw [hmapapp, distinctFirstSeen_append_single]
      unfold dfsStep
      rw [if_neg]
      intro hc
      exact hmem ((mem_distinctFirstSeen _ _).mp ((containsS_iff _ _).mp hc))
    show (if ((canonGroup done).find? fun p => p.1 == mentionKey m).isSome then
        (canonGroup done).map fun p =>
          if p.1 == mentionKey m then (p.1, bumpGroup p.2 m.comment) else p
      else canonGroup done ++
        [(mentionKey m, { count := 1, category := m.category, comments := [m.comment] })]) =
      canonGroup (done ++ [m])
    rw [if_neg hfind]
    unfold canonGroup
    rw [hdfs, List.map_append]
    congr 1
    · refine List.map_congr_left ?_
      intro k hk
      have hkne : mentionKey m ≠ k := by
        intro h
        exact hmem (h ▸ (mem_distinctFirstSeen _ _).mp hk)
      rw [gdata_append_of_ne _ _ _ hkne]
    · rw [show List.map (fun k => (k, gdata k (done ++ [m]))) [mentionKey m] =
        [(mentionKey m, gdata (mentionKey m) (done ++ [m]))] from rfl]
      rw [gdata_append_new done m hmem]

/-- `_group_similar_pains` computes the canonical grouped dict. -/
theorem group_similar_pains_eq_canon (ms : List Mention) :
    group_similar_pains ms = canonGroup ms := by
  have main : ∀ (l done : List Mention),
      List.foldl addMention (canonGroup done) l = canonGroup (done ++ l) := by
    intro l
    induction l with
    | nil => intro done; simp
    | cons x xs ih =>
      intro done
      rw [List.foldl_cons, addMention_canonGroup, ih (done ++ [x])]
      simp
  have h := main ms []
  simpa [group_similar_pains, canonGroup, distinctFirstSeen] using h

/-- Membership in the canonical grouped dict. -/
theorem mem_canonGroup {ms : List Mention} {key : String} {d : GroupData} :
    (key, d) ∈ canonGroup ms ↔ key ∈ ms.map mentionKey ∧ d = gdata key ms := by
  unfold canonGroup
  rw [List.mem_map]
  constructor
  · rintro ⟨k, hk, heq⟩
    have hk1 : k = key := congrArg Prod.fst heq
    have hk2 : gdata k ms = d := congrArg Prod.snd heq
    subst hk1
    exact ⟨(mem_distinctFirstSeen _ _).mp hk, hk2.symm⟩
  · rintro ⟨hmem, rfl⟩
    exact ⟨key, (mem_distinctFirstSeen _ _).mpr hmem, rfl⟩

/-! ### The ranking sort: permutation, sortedness, stability -/

/-- Inserting is a permutation of consing. -/
theorem insertBySeverity_perm (x : PainPoint) (l : List PainPoint) :
    (insertBySeverity x l).Perm (x :: l) := by
  induction l with
  | nil => exact List.Perm.refl _
  | cons y ys ih =>
    unfold insertBySeverity
    split
    · exact List.Perm.refl _
    · exact List.Perm.trans (List.Perm.cons y ih) (List.Perm.swap x y ys)

/-- The ranking sort permutes its input. -/
theorem sortBySeverityDesc_perm (l : List PainPoint) :
    (sortBySeverityDesc l).Perm l := by
  have main : ∀ (l acc : List PainPoint),
      (List.foldl (fun acc x => insertBySeverity x acc) acc l).Perm (acc ++ l) := by
    intro l
    induction l with
    | nil => intro acc; simp
    | cons x xs ih =>
      intro acc
      refine List.Perm.trans (ih (insertBySeverity x acc)) ?_
      refine List.Perm.trans (List.Perm.append_right xs (insertBySeverity_perm x acc)) ?_
      exact List.perm_middle.symm
  simpa [sortBySeverityDesc] using main l []

/-- Inserting preserves descending sortedness. -/
theorem insertBySeverity_pairwise {x : PainPoint} {l : List PainPoint}
    (h : l.Pairwise fun a b => b.severity ≤ a.severity) :
    (insertBySeverity x l).Pairwise fun a b => b.severity ≤ a.severity := by
  induction l with
  | nil => simp [insertBySeverity]
  | cons y ys ih =>
    rw [List.pairwise_cons] at h
    obtain ⟨hy, hys⟩ := h
    unfold insertBySeverity
    split
    · rename_i hlt
      rw [List.pairwise_cons]
      refine ⟨?_, List.pairwise_cons.mpr ⟨hy, hys⟩⟩
      intro z hz
      rcases List.mem_cons.mp hz with rfl | hz
      · exact le_of_lt hlt
      · exact (hy z hz).trans (le_of_lt hlt)
    · rename_i hnlt
      rw [List.pairwise_cons]
      refine ⟨?_, ih hys⟩
      intro z hz
      have hz' : z ∈ x :: ys := (insertBySeverity_perm x ys).mem_iff.mp hz
      rcases List.mem_cons.mp hz' with rfl | hz'
      · exact not_lt.mp hnlt
      · exact hy z hz'

/-- The ranking sort is sorted descending by severity. -/
theorem sortBySeverityDesc_pairwise (l : List PainPoint) :
    (sortBySeverityDesc l).Pairwise fun a b => b.severity ≤ a.severity := by
  have main : ∀ (l acc : List PainPoint),
      (acc.Pairwise fun a b => b.severity ≤ a.severity) →
      (List.foldl (fun acc x => insertBySeverity x acc) acc l).Pairwise
        fun a b => b.severity ≤ a.severity := by
    intro l
    induction l with
    | nil => intro acc h; exact h
    | cons x xs ih => intro acc h; exact ih _ (insertBySeverity_pairwise h)
  exact main l [] List.Pairwise.nil

/-- Inserting into a sorted list puts the new element after all equal
severities: on each severity class the filter just appends. -/
theorem insertBySeverity_filter (s : ℚ) (x : PainPoint) (l : List PainPoint)
    (h : l.Pairwise fun a b => b.severity ≤ a.severity) :
    (insertBySeverity x l).filter (fun p => decide (p.severity = s)) =
      l.filter (fun p => decide (p.severity = s)) ++
        if x.severity = s then [x] else [] := by
  induction l with
  | nil =>
    by_cases hxs : x.severity = s <;> simp [insertBySeverity, List.filter, hxs]
  | cons y ys ih =>
    rw [List.pairwise_cons] at h
    obtain ⟨hy, hys⟩ := h
    unfold insertBySeverity
    split
    · rename_i hlt
      by_cases hxs : x.severity = s
      · have hnil : (y :: ys).filter (fun p => decide (p.severity = s)) = [] := by
          rw [List.filter_eq_nil_iff]
          intro z hz
          simp only [decide_eq_true_eq]
          rcases List.mem_cons.mp hz with rfl | hz
          · exact ne_of_lt (hxs ▸ hlt)
          · exact ne_of_lt (lt_of_le_of_lt (hy z hz) (hxs ▸ hlt))
        rw [List.filter_cons_of_pos (by simpa using hxs), hnil]
        simp [hxs]
      · rw [List.filter_cons_of_neg (by simpa using hxs)]
        simp [hxs]
    · rename_i hnlt
      rw [List.filter_cons]
      by_cases hys' : y.severity = s
      · rw [if_pos (by simpa using hys'), ih hys,
            List.filter_cons_of_pos (by simpa using hys')]
        simp
      · rw [if_neg (by simpa using hys'), ih hys,
            List.filter_cons_of_neg (by simpa using hys')]

/-- On each severity class the ranking sort is the identity: stability. -/
theorem sortBySeverityDesc_filter (l : List PainPoint) (s : ℚ) :
    (sortBySeverityDesc l).filter (fun p => decide (p.severity = s)) =
      l.filter (fun p => decide (p.severity = s)) := by
  have main : ∀ (l acc : List PainPoint),
      (acc.Pairwise fun a b => b.severity ≤ a.severity) →
      (List.foldl (fun acc x => insertBySeverity x acc) acc l).filter
          (fun p => decide (p.severity = s)) =
        acc.filter (fun p => decide (p.severity = s)) ++
          l.filter (fun p => decide (p.severity = s)) := by
    intro l
    induction l with
    | nil => intro acc h; simp
    | cons x xs ih =>
      intro acc h
      rw [List.foldl_cons, ih _ (insertBySeverity_pairwise h),
          insertBySeverity_filter s x acc h]
      by_cases hxs : x.severity = s
      · rw [if_pos hxs, List.filter_cons_of_pos (by simpa using hxs)]
        simp
      · rw [if_neg hxs, List.filter_cons_of_neg (by simpa using hxs)]
        simp
  simpa [sortBySeverityDesc] using main l [] List.Pairwise.nil

/-! ### Weights and severity bounds -/

/-- A successful lookup returns a listed pair. -/
theorem lookupQ_mem : ∀ {l : List (String × ℚ)} {c : String} {w : ℚ},
    lookupQ l c = some w → (c, w) ∈ l := by
  intro l
  induction l with
  | nil => intro c w h; simp [lookupQ] at h
  | cons p rest ih =>
    intro c w h
    obtain ⟨k, v⟩ := p
    unfold lookupQ at h
    split at h
    · rename_i hbeq
      obtain rfl : v = w := by injection h
      have : k = c := by simpa using hbeq
      subst this
      exact List.mem_cons_self _ _
    · exact List.mem_cons_of_mem _ (ih h)

/-- Every listed severity weight is in `(0, 1]`. -/
theorem severity_weights_bounds :
    ∀ p ∈ severity_weights, 0 < p.2 ∧ p.2 ≤ 1 := by
  with_unfolding_all decide

/-- The effective weight is positive. -/
theorem getWeight_pos (c : String) : 0 < getWeight c := by
  unfold getWeight
  split
  · rename_i w h
    exact (severity_weights_bounds _ (lookupQ_mem h)).1
  · norm_num

/-- The effective weight is at most one. -/
theorem getWeight_le_one (c : String) : getWeight c ≤ 1 := by
  unfold getWeight
  split
  · rename_i w h
    exact (severity_weights_bounds _ (lookupQ_mem h)).2
  · norm_num

/-- The severity score is nonnegative. -/
theorem calculate_severity_nonneg (c : String) (count total : Nat) :
    0 ≤ calculate_severity c count total := by
  unfold calculate_severity
  have hw : 0 ≤ getWeight c := le_of_lt (getWeight_pos c)
  have hf : (0 : ℚ) ≤ (count : ℚ) / (total : ℚ) :=
    div_nonneg (Nat.cast_nonneg count) (Nat.cast_nonneg total)
  have : (0 : ℚ) ≤ getWeight c * (1 + (count : ℚ) / (total : ℚ) * 2) := by
    have : (0 : ℚ) ≤ 1 + (count : ℚ) / (total : ℚ) * 2 := by nlinarith
    nlinarith
  exact le_min this (by norm_num)

/-- The severity score is at most one. -/
theorem calculate_severity_le_one (c : String) (count total : Nat) :
    calculate_severity c count total ≤ 1 :=
  min_le_right _ _

/-- The severity score is at least the category's base weight. -/
theorem getWeight_le_calculate_severity (c : String) (count total : Nat) :
    getWeight c ≤ calculate_severity c count total := by
  unfold calculate_severity
  have hw : 0 ≤ getWeight c := le_of_lt (getWeight_pos c)
  have hf : (0 : ℚ) ≤ (count : ℚ) / (total : ℚ) :=
    div_nonneg (Nat.cast_nonneg count) (Nat.cast_nonneg total)
  refine le_min ?_ (getWeight_le_one c)
  nlinarith

/-! ### Extraction lemmas -/

/-- The categories of the mentions extracted from one comment form a
sublist of the taxonomy's category list. -/
theorem extract_categories_sublist (pk : List (String × List String))
    (c : Comment) :
    ((extract_pain_points_from_comment pk c).map Mention.category).Sublist
      (pk.map Prod.fst) := by
  induction pk with
  | nil => simp [extract_pain_points_from_comment]
  | cons p rest ih =>
    unfold extract_pain_points_from_comment
    rw [List.filterMap_cons]
    cases hf : (p.2.find? fun kw => matchesKeyword c kw) with
    | none =>
      simp only [Option.map_none, List.map_cons]
      exact ih.cons p.1
    | some kw =>
      simp only [Option.map_some, List.map_cons]
      exact ih.cons₂ p.1

/-! ### Membership in the pipeline output -/

/-- The ranked output has exactly the members of the grouping-order
list. -/
theorem mem_analyze_iff {cs : List Comment} {p : PainPoint} :
    p ∈ analyze_pain_points cs ↔ p ∈ prePainPoints cs :=
  (sortBySeverityDesc_perm _).mem_iff

/-- The grouping-order pain points are exactly the canonical groups of
the extracted mentions, packaged by `mkPainPoint`. -/
theorem mem_prePainPoints {cs : List Comment} {p : PainPoint} :
    p ∈ prePainPoints cs ↔
      ∃ key, key ∈ (allMentions pain_keywords cs).map mentionKey ∧
        p = mkPainPoint cs.length (key, gdata key (allMentions pain_keywords cs)) := by
  unfold prePainPoints
  rw [group_similar_pains_eq_canon, List.mem_map]
  constructor
  · rintro ⟨⟨key, d⟩, hmem, rfl⟩
    obtain ⟨hkey, rfl⟩ := mem_canonGroup.mp hmem
    exact ⟨key, hkey, rfl⟩
  · rintro ⟨key, hkey, rfl⟩
    exact ⟨(key, gdata key _), mem_canonGroup.mpr ⟨hkey, rfl⟩, rfl⟩

/-- A key occurring among the mentions has a first mention, which
realises it and its group's category. -/
theorem keyMentions_head (key : String) (ms : List Mention)
    (h : key ∈ ms.map mentionKey) :
    ∃ m0, (keyMentions key ms).head? = some m0 ∧ m0 ∈ ms ∧ mentionKey m0 = key := by
  have hne := keyMentions_ne_nil key ms h
  cases hkm : keyMentions key ms with
  | nil => exact absurd hkm hne
  | cons m0 tl =>
    have hm : m0 ∈ keyMentions key ms := by
      rw [hkm]; exact List.mem_cons_self _ _
    refine ⟨m0, rfl, List.mem_of_mem_filter hm, ?_⟩
    have := List.of_mem_filter hm
    simpa using this

/-! ### Evaluation of the pipeline on the sample comment -/

/-- Extraction and grouping on the sample comment: one group, for the
first matching keyword of category 教学节奏. -/
theorem sample_group_eval :
    group_similar_pains (allMentions pain_keywords [sampleComment]) =
      [("教学节奏: 太快", { count := 1, category := "教学节奏", comments := ["太快"] })] := by
  decide

/-- The full pipeline output on the sample comment. -/
theorem sample_pipeline : analyze_pain_points [sampleComment] = [samplePP] := by
  unfold analyze_pain_points prePainPoints
  rw [sample_group_eval]
  rfl

/-- The sample pain point is in the pipeline output. -/
theorem sample_mem : samplePP ∈ analyze_pain_points [sampleComment] := by
  rw [sample_pipeline]
  exact List.mem_cons_self _ _

/-! ### Shared consequences of the group characterisation -/

/-- Every output pain point lists at most as many related comments as it
counts mentions: each mention contributes at most one distinct text. -/
theorem frequency_ge_related (cs : List Comment) (p : PainPoint)
    (hp : p ∈ analyze_pain_points cs) :
    p.related_comments.length ≤ p.frequency := by
  obtain ⟨key, hkey, rfl⟩ := mem_prePainPoints.mp (mem_analyze_iff.mp hp)
  show ((distinctFirstSeen
      ((keyMentions key (allMentions pain_keywords cs)).map Mention.comment)).take 5).length ≤
    (keyMentions key (allMentions pain_keywords cs)).length
  calc ((distinctFirstSeen
        ((keyMentions key (allMentions pain_keywords cs)).map Mention.comment)).take 5).length
      ≤ (distinctFirstSeen
          ((keyMentions key (allMentions pain_keywords cs)).map Mention.comment)).length := by
        rw [List.length_take]; exact min_le_right _ _
    _ ≤ ((keyMentions key (allMentions pain_keywords cs)).map Mention.comment).length :=
        length_distinctFirstSeen _
    _ = (keyMentions key (allMentions pain_keywords cs)).length := List.length_map _ _

/-! ### The claims -/

/-- C1: for every category `c`, frequency `f ≥ 1` and corpus size
`n > 0`, the scorer returns `min(1.0, weight(c) * (1 + (f / n) * 2))`,
where `weight(c)` defaults to `0.5` when `c` is not listed in the weight
mapping. -/
theorem C1_severity_formula (c : String) (f n : Nat) (hf : 1 ≤ f) (hn : 0 < n) :
    calculate_severity c f n = specSeverity c f n ∧
    (lookupQ severity_weights c = none → getWeight c = 1/2) := by
  constructor
  · unfold calculate_severity specSeverity
    rw [min_comm]
  · intro h
    unfold getWeight
    rw [h]

/-- Witness for C1 at the spec's 用户体验 scenario (`f = 3`, `n = 10`). -/
theorem C1_severity_formula_witness :
    1 ≤ 3 ∧ 0 < 10 ∧
      (calculate_severity "用户体验" 3 10 = specSeverity "用户体验" 3 10 ∧
       (lookupQ severity_weights "用户体验" = none → getWeight "用户体验" = 1/2)) :=
  ⟨by decide, by decide, C1_severity_formula "用户体验" 3 10 (by decide) (by decide)⟩

/-- C2: extraction of one comment yields at most one mention per
category — the recorded keyword is the first match in declared order, and
no two mentions share a category (given the taxonomy's keys are unique,
as Python dict keys are). -/
theorem C2_one_mention_per_category (pk : List (String × List String))
    (c : Comment) (hnd : (pk.map Prod.fst).Nodup) :
    ((extract_pain_points_from_comment pk c).map Mention.category).Nodup ∧
    ∀ m ∈ extract_pain_points_from_comment pk c,
      ∃ kws, (m.category, kws) ∈ pk ∧
        kws.find? (fun kw => matchesKeyword c kw) = some m.keyword := by
  constructor
  · exact hnd.sublist (extract_categories_sublist pk c)
  · intro m hm
    obtain ⟨p, hp, hf⟩ := List.mem_filterMap.mp hm
    obtain ⟨cat, kws⟩ := p
    cases hfind : (kws.find? fun kw => matchesKeyword c kw) with
    | none => rw [hfind] at hf; simp at hf
    | some kw =>
      rw [hfind] at hf
      simp only [Option.map_some', Option.some.injEq] at hf
      subst hf
      exact ⟨kws, hp, hfind⟩

/-- Witness for C2 at the shipped taxonomy and the sample comment. -/
theorem C2_one_mention_per_category_witness :
    (pain_keywords.map Prod.fst).Nodup ∧
      (((extract_pain_points_from_comment pain_keywords sampleComment).map
          Mention.category).Nodup ∧
       ∀ m ∈ extract_pain_points_from_comment pain_keywords sampleComment,
         ∃ kws, (m.category, kws) ∈ pain_keywords ∧
           kws.find? (fun kw => matchesKeyword sampleComment kw) = some m.keyword) :=
  ⟨by decide, C2_one_mention_per_category pain_keywords sampleComment (by decide)⟩

/-- C3 counterexample: the code tests the keyword as written against the
lowercased text, so for keyword "AD" and a comment "ad" the claimed
equivalence with lowercased-keyword containment fails (the lowercased
keyword "ad" is contained, but the code reports no match). -/
theorem C3_counterexample :
    ¬ (matchesKeyword
        { text := "ad", author := "", likes := 0, timestamp := "", reply_count := 0 }
        "AD" = true ↔
       containsSub (lowerStr "ad") (lowerStr "AD") = true) := by
  decide

/-- C3 amended: a keyword matches iff the keyword, as written, is a
substring of the lowercased comment text; for every keyword of the
shipped taxonomy lowercasing is the identity, so on those keywords this
coincides with the claimed lowercased-keyword containment. -/
theorem C3_match_lowercase (c : Comment) (cat : String) (kws : List String)
    (kw : String) (hcat : (cat, kws) ∈ pain_keywords) (hkw : kw ∈ kws) :
    (matchesKeyword c kw = true ↔
      containsSub (lowerStr c.text) (lowerStr kw) = true) ∧
    lowerStr kw = kw := by
  have hall : ∀ p ∈ pain_keywords, ∀ w ∈ p.2, lowerStr w = w := by decide
  have hfix : lowerStr kw = kw := hall _ hcat kw hkw
  rw [matchesKeyword, hfix]
  exact ⟨Iff.rfl, rfl⟩

/-- Witness for C3's amended claim at keyword 太快 of 教学节奏. -/
theorem C3_match_lowercase_witness :
    (("教学节奏", ["太快", "太慢", "跟不上", "节奏", "速度", "时间"]) ∈ pain_keywords ∧
     "太快" ∈ ["太快", "太慢", "跟不上", "节奏", "速度", "时间"]) ∧
    ((matchesKeyword sampleComment "太快" = true ↔
       containsSub (lowerStr sampleComment.text) (lowerStr "太快") = true) ∧
     lowerStr "太快" = "太快") :=
  ⟨⟨by decide, by decide⟩,
   C3_match_lowercase sampleComment "教学节奏"
     ["太快", "太慢", "跟不上", "节奏", "速度", "时间"] "太快" (by decide) (by decide)⟩

/-- C4 counterexample: grouping is by the concatenated key string, not by
the (category, keyword) pair: the two distinct pairs ("a: b", "c") and
("a", "b: c") share the key "a: b: c", so the single group counts 2
mentions while only 1 mention carries the pair ("a: b", "c"). -/
theorem C4_counterexample :
    (group_similar_pains
        [{ category := "a: b", keyword := "c", comment := "t1", likes := 0 },
         { category := "a", keyword := "b: c", comment := "t2", likes := 0 }]).map
        (fun p => (p.1, p.2.count)) = [("a: b: c", 2)] ∧
    ([{ category := "a: b", keyword := "c", comment := "t1", likes := 0 },
      ({ category := "a", keyword := "b: c", comment := "t2", likes := 0 } : Mention)].filter
        (fun m => m.category == "a: b" && m.keyword == "c")).length = 1 ∧
    (2 : Nat) ≠ 1 := by
  decide

/-- C4 amended: every output pain point's description is the grouping
key `category ++ ": " ++ keyword` of some extracted mention, its category
is that of the first such mention, and its frequency counts exactly the
mentions whose grouping key equals the description (which coincides with
the (category, keyword)-pair count whenever distinct pairs have distinct
keys, as holds for the shipped taxonomy). -/
theorem C4_frequency_counts_key (cs : List Comment) (p : PainPoint)
    (hp : p ∈ analyze_pain_points cs) :
    p.frequency = ((allMentions pain_keywords cs).filter
        (fun m => mentionKey m == p.description)).length ∧
    ∃ m ∈ allMentions pain_keywords cs,
      mentionKey m = p.description ∧ m.category = p.category := by
  obtain ⟨key, hkey, rfl⟩ := mem_prePainPoints.mp (mem_analyze_iff.mp hp)
  constructor
  · rfl
  · obtain ⟨m0, hh, hm0, hkeym0⟩ := keyMentions_head key _ hkey
    refine ⟨m0, hm0, hkeym0, ?_⟩
    show m0.category = ((keyMentions key (allMentions pain_keywords cs)).head?.map
      Mention.category).getD ""
    rw [hh]
    rfl

/-- Witness for C4's amended claim at the sample comment. -/
theorem C4_frequency_counts_key_witness :
    samplePP ∈ analyze_pain_points [sampleComment] ∧
      (samplePP.frequency = ((allMentions pain_keywords [sampleComment]).filter
          (fun m => mentionKey m == samplePP.description)).length ∧
       ∃ m ∈ allMentions pain_keywords [sampleComment],
         mentionKey m = samplePP.description ∧ m.category = samplePP.category) :=
  ⟨sample_mem, C4_frequency_counts_key [sampleComment] samplePP sample_mem⟩

/-- C5: every output pain point's related comment list has at most 5
entries, all distinct, and is the first-seen deduplication of its group's
mention texts truncated to 5. -/
theorem C5_related_comments (cs : List Comment) (p : PainPoint)
    (hp : p ∈ analyze_pain_points cs) :
    p.related_comments.length ≤ 5 ∧ p.related_comments.Nodup ∧
    p.related_comments = (distinctFirstSeen
        (((allMentions pain_keywords cs).filter
          (fun m => mentionKey m == p.description)).map Mention.comment)).take 5 := by
  obtain ⟨key, hkey, rfl⟩ := mem_prePainPoints.mp (mem_analyze_iff.mp hp)
  refine ⟨?_, ?_, rfl⟩
  · show ((distinctFirstSeen _).take 5).length ≤ 5
    rw [List.length_take]
    exact min_le_left _ _
  · exact (distinctFirstSeen_nodup _).sublist (List.take_sublist _ _)

/-- Witness for C5 at the sample comment. -/
theorem C5_related_comments_witness :
    samplePP ∈ analyze_pain_points [sampleComment] ∧
      (samplePP.related_comments.length ≤ 5 ∧ samplePP.related_comments.Nodup ∧
       samplePP.related_comments = (distinctFirstSeen
          (((allMentions pain_keywords [sampleComment]).filter
            (fun m => mentionKey m == samplePP.description)).map Mention.comment)).take 5) :=
  ⟨sample_mem, C5_related_comments [sampleComment] samplePP sample_mem⟩

/-- C6: the output is the grouping-order pain point list sorted by
severity descending, and stably so: it is a permutation, it is pairwise
descending, and within each severity class the grouping-encounter order
is preserved exactly. -/
theorem C6_rank_stable_desc (cs : List Comment) :
    (analyze_pain_points cs).Perm (prePainPoints cs) ∧
    (analyze_pain_points cs).Pairwise (fun a b => b.severity ≤ a.severity) ∧
    ∀ s : ℚ, (analyze_pain_points cs).filter (fun p => decide (p.severity = s)) =
      (prePainPoints cs).filter (fun p => decide (p.severity = s)) :=
  ⟨sortBySeverityDesc_perm _, sortBySeverityDesc_pairwise _,
   fun s => sortBySeverityDesc_filter _ s⟩

/-- C7: every output pain point's severity lies in the closed interval
`[0, 1]`. -/
theorem C7_severity_in_unit_interval (cs : List Comment) (p : PainPoint)
    (hp : p ∈ analyze_pain_points cs) :
    0 ≤ p.severity ∧ p.severity ≤ 1 := by
  obtain ⟨key, hkey, rfl⟩ := mem_prePainPoints.mp (mem_analyze_iff.mp hp)
  exact ⟨calculate_severity_nonneg _ _ _, calculate_severity_le_one _ _ _⟩

/-- Witness for C7 at the sample comment. -/
theorem C7_severity_in_unit_interval_witness :
    samplePP ∈ analyze_pain_points [sampleComment] ∧
      (0 ≤ samplePP.severity ∧ samplePP.severity ≤ 1) :=
  ⟨sample_mem, C7_severity_in_unit_interval [sampleComment] samplePP sample_mem⟩

/-- C8: the empty comment sequence yields the empty pain point sequence,
with no group ever formed and no invocation of the scorer's division
(the exception-explicit pipeline returns `some` rather than the `none`
that models `ZeroDivisionError`). -/
theorem C8_empty_input :
    analyze_pain_points [] = [] ∧
    group_similar_pains (allMentions pain_keywords []) = [] ∧
    analyze_pain_pointsE [] = some [] :=
  ⟨rfl, rfl, rfl⟩

/-- C9 counterexample (the claim's negation): no input produces a pain
point whose frequency is below its related comment count, because each
counted mention contributes at most one related comment. -/
theorem C9_counterexample :
    ¬ ∃ (cs : List Comment) (p : PainPoint),
        p ∈ analyze_pain_points cs ∧
        p.frequency < p.related_comments.length := by
  rintro ⟨cs, p, hp, hlt⟩
  have hge := frequency_ge_related cs p hp
  omega

/-- C9 amended: the invariant `frequency >= len(related_comments)` does
hold for every input and every produced pain point — `related_comments`
only loses elements relative to the group's mentions (deduplication and
the cap at 5), while `frequency` counts all of them. -/
theorem C9_frequency_ge_related (cs : List Comment) (p : PainPoint)
    (hp : p ∈ analyze_pain_points cs) :
    p.related_comments.length ≤ p.frequency :=
  frequency_ge_related cs p hp

/-- Witness for C9's amended claim at the sample comment. -/
theorem C9_frequency_ge_related_witness :
    samplePP ∈ analyze_pain_points [sampleComment] ∧
      samplePP.related_comments.length ≤ samplePP.frequency :=
  ⟨sample_mem, C9_frequency_ge_related [sampleComment] samplePP sample_mem⟩

/-- C10: on any (in particular nonempty) input, every produced pain
point has frequency at least 1, and its severity is at least its
category's base weight, hence strictly positive. -/
theorem C10_frequency_severity_pos (cs : List Comment) (p : PainPoint)
    (hcs : cs ≠ []) (hp : p ∈ analyze_pain_points cs) :
    1 ≤ p.frequency ∧ getWeight p.category ≤ p.severity ∧ 0 < p.severity := by
  obtain ⟨key, hkey, rfl⟩ := mem_prePainPoints.mp (mem_analyze_iff.mp hp)
  refine ⟨?_, ?_, ?_⟩
  · have hne := keyMentions_ne_nil key _ hkey
    exact List.length_pos.mpr hne
  · exact getWeight_le_calculate_severity _ _ _
  · exact lt_of_lt_of_le (getWeight_pos _) (getWeight_le_calculate_severity _ _ _)

/-- Witness for C10 at the sample comment. -/
theorem C10_frequency_severity_pos_witness :
    ([sampleComment] : List Comment) ≠ [] ∧
      samplePP ∈ analyze_pain_points [sampleComment] ∧
      (1 ≤ samplePP.frequency ∧ getWeight samplePP.category ≤ samplePP.severity ∧
       0 < samplePP.severity) :=
  ⟨by decide, sample_mem,
   C10_frequency_severity_pos [sampleComment] samplePP (by decide) sample_mem⟩
